import Mathlib

/-!
# Verification of the qoop evolution mutation operators

Shallow embedding of `src/qoop/evolution/mutate.py` and
`src/qoop/evolution/normalizer.py` (the TestGAQSVM repository), together
with proofs of the specified properties of the Site Mutator, Bitflip
Mutator, Layerflip Mutator and the by-depth normalizer.

Randomness (`random.choice`, `random.random`) is modelled by explicit
streams: an index stream `draws : Nat → Nat` for pool choices and a
coin stream `coins : Nat → ℚ` for the per-position probability draws.
The unbounded `while True` redraw loop of the Site Mutator is modelled
with explicit fuel; "the loop never terminates" becomes "for every fuel
the search returns none".
-/

namespace Qoop

/-- A quantum gate (an instantiated operation): its name, its qubit arity
(`num_qubits`), and the names of its symbolic parameters. -/
structure Gate where
  name : String
  num_qubits : Nat
  params : List String
deriving DecidableEq, Repr

/-- A gate descriptor in the pool: `{'operation': constructor, 'num_params': k}`.
The constructor, applied to its declared number of parameters, yields a gate
with name `name` and arity `num_qubits` (the pool-authoring invariant of the
spec: the constructor's arity is fixed by the descriptor). -/
structure GateDescr where
  name : String
  num_qubits : Nat
  num_params : Nat
deriving DecidableEq, Repr

/-- Instantiating a descriptor at a position index, mirroring the three
branches of the source: zero parameters → no parameter; one parameter →
a single `Parameter` named after the index; otherwise a `ParameterVector`
named after the index, of length `num_params`. -/
def instantiate_gate (d : GateDescr) (index : Nat) : Gate :=
  if d.num_params = 0 then
    ⟨d.name, d.num_qubits, []⟩
  else if d.num_params = 1 then
    ⟨d.name, d.num_qubits, [toString index]⟩
  else
    ⟨d.name, d.num_qubits,
      (List.range d.num_params).map
        (fun i => toString index ++ "[" ++ toString i ++ "]")⟩

/-- One element of `qc.data`: the triple (operation, target qubits,
target classical bits). -/
structure CircuitInstruction where
  operation : Gate
  qubits : List Nat
  clbits : List Nat
deriving DecidableEq, Repr

/-- A circuit is its ordered instruction sequence `qc.data`. -/
abbrev Circuit := List CircuitInstruction

/-- Result of a Site Mutator call: success, an out-of-range position
(Python `IndexError` on `qc.data[index]`), or fuel exhaustion of the
modelled redraw loop (the source loop would still be spinning). -/
inductive MutateResult where
  | ok (qc : Circuit)
  | indexError
  | outOfFuel
deriving DecidableEq, Repr

/-- The redraw loop of `specific_mutate`: at each step draw
`random.choice(pool)` (modelled as `pool[draws step % pool.length]`),
instantiate it at `index`, and accept iff its qubit arity equals the
arity of the existing operation.  Fuel bounds the number of draws. -/
def drawLoop (pool : List GateDescr) (draws : Nat → Nat) (index : Nat)
    (arity : Nat) : Nat → Nat → Option Gate
  | 0, _ => none
  | fuel + 1, step =>
    let d := pool.getD (draws step % pool.length) ⟨"", 0, 0⟩
    let gate := instantiate_gate d index
    if gate.num_qubits = arity then some gate
    else drawLoop pool draws index arity fuel (step + 1)

/-- The function `specific_mutate`: replace the gate at `index` by a pool draw of
matching arity.  On acceptance the position is overwritten only in the
arity-1 and arity-2 branches of the source; other arities leave
`qc.data[index]` untouched and return the circuit as is. -/
def specific_mutate (pool : List GateDescr) (draws : Nat → Nat)
    (fuel : Nat) (qc : Circuit) (index : Nat) : MutateResult :=
  match qc.get? index with
  | none => .indexError
  | some instr =>
    match drawLoop pool draws index instr.operation.num_qubits fuel 0 with
    | none => .outOfFuel
    | some gate =>
      let target_qubits := instr.qubits
      if gate.num_qubits = 1 then
        .ok (qc.set index ⟨gate, [target_qubits.headD 0], []⟩)
      else if gate.num_qubits = 2 then
        .ok (qc.set index
          ⟨gate,
            if target_qubits.length > 1 then
              [target_qubits.getD 0 0, target_qubits.getD 1 0]
            else [target_qubits.headD 0], []⟩)
      else .ok qc

/-- Rotation-gate classification by name, `name in ["rx", "ry", "rz"]`. -/
def isRotGate (name : String) : Bool :=
  (["rx", "ry", "rz"] : List String).contains name

/-- Count `num_rot_gates`: how many instructions of the circuit hold a rotation
gate (the `sum(1 for gate in qc.data if ...)` of the source). -/
def num_rot_gates (qc : Circuit) : Nat :=
  qc.countP (fun instr => isRotGate instr.operation.name)

/-- The redraw loop of `specific_mutate_testing`: accept a draw iff its
arity matches AND (it is a rotation gate, OR the replaced position did
not hold a rotation gate and the current rotation-gate count is at least
`num_qubits`). Both `num_rot` and `currentIsRot` are computed once,
before the loop, as in the source. -/
def drawLoopTesting (pool : List GateDescr) (draws : Nat → Nat)
    (index : Nat) (arity : Nat) (currentIsRot : Bool)
    (numRot numQubits : Nat) : Nat → Nat → Option Gate
  | 0, _ => none
  | fuel + 1, step =>
    let d := pool.getD (draws step % pool.length) ⟨"", 0, 0⟩
    let gate := instantiate_gate d index
    if gate.num_qubits = arity ∧
        (isRotGate gate.name = true ∨
          (currentIsRot = false ∧ numQubits ≤ numRot)) then
      some gate
    else drawLoopTesting pool draws index arity currentIsRot numRot
      numQubits fuel (step + 1)

/-- The function `specific_mutate_testing`: the constrained Site Mutator.  On
acceptance it overwrites the position with the new gate, the unmodified
original target-qubit sequence, and empty classical bits. -/
def specific_mutate_testing (pool : List GateDescr) (draws : Nat → Nat)
    (fuel : Nat) (qc : Circuit) (index : Nat) (num_qubits : Nat) :
    MutateResult :=
  match qc.get? index with
  | none => .indexError
  | some instr =>
    let numRot := num_rot_gates qc
    let currentIsRot := isRotGate instr.operation.name
    match drawLoopTesting pool draws index instr.operation.num_qubits
        currentIsRot numRot num_qubits fuel 0 with
    | none => .outOfFuel
    | some gate => .ok (qc.set index ⟨gate, instr.qubits, []⟩)

/-- A sequence of constrained Site Mutator calls: each step carries its
own draw stream and fuel; a step that does not return a circuit (index
error or spinning loop) leaves the circuit as it was. -/
def mutate_testing_seq (pool : List GateDescr)
    (steps : List ((Nat → Nat) × Nat × Nat)) (num_qubits : Nat)
    (qc : Circuit) : Circuit :=
  steps.foldl
    (fun acc s =>
      match specific_mutate_testing pool s.1 s.2.1 acc s.2.2 num_qubits with
      | .ok qc' => qc'
      | _ => acc) qc

/-- One iteration of the bitflip loop: a coin is drawn for the position
and, when it is below the probability, the Site Mutator runs at that
position.  The trace accumulates the positions at which the Site
Mutator fired, in order; `none` models a Site Mutator call that did not
return (index error or endless redraw). -/
def bitflip_step (pool : List GateDescr) (drawsAt : Nat → Nat → Nat)
    (fuel : Nat) (coins : Nat → ℚ) (prob_mutate : ℚ)
    (acc : Option (Circuit × List Nat)) (index : Nat) :
    Option (Circuit × List Nat) :=
  match acc with
  | none => none
  | some (cur, tr) =>
    if coins index < prob_mutate then
      match specific_mutate pool (drawsAt index) fuel cur index with
      | .ok qc' => some (qc', tr ++ [index])
      | _ => none
    else some (cur, tr)

/-- The closure `bitflip_mutate(pool, prob_mutate)` applied to a
circuit: the gate count is read once before the loop, and the loop runs
the per-position step over the positions in order. -/
def bitflip_mutate_func (pool : List GateDescr)
    (drawsAt : Nat → Nat → Nat) (fuel : Nat) (coins : Nat → ℚ)
    (prob_mutate : ℚ) (qc : Circuit) : Option (Circuit × List Nat) :=
  let num_gates := qc.length
  (List.range num_gates).foldl
    (bitflip_step pool drawsAt fuel coins prob_mutate) (some (qc, []))

/-! ## Layer-level view

The Layerflip Mutator and the normalizers act on circuits through the
external collaborators `utilities.divide_circuit_by_depth`,
`utilities.compose_circuit`, `utilities.truncate_circuit` and
`random_circuit.generate_with_pool`, whose sources are not part of the
repository snapshot.  They are modelled from the spec over a view of a
circuit as its sequence of depth-layers, with depth the number of
layers. -/

/-- A circuit viewed as its qubit count and ordered list of depth-layers,
each layer the list of gates at one depth offset (spec §3: a layer is
the slice of the circuit at a given depth offset; depth is the critical
path length, i.e. the number of layers). -/
structure LCircuit where
  num_qubits : Nat
  layers : List (List Gate)
deriving DecidableEq, Repr

/-- Depth `qc.depth()`: the number of depth-layers. -/
def LCircuit.depth (qc : LCircuit) : Nat := qc.layers.length

/-- Modelled from the spec: `utilities.divide_circuit_by_depth(qc, d)`
splits the circuit into the prefix of depths `[0, d)` and the suffix of
depths `[d, end)`. -/
def divide_circuit_by_depth (qc : LCircuit) (d : Nat) :
    LCircuit × LCircuit :=
  (⟨qc.num_qubits, qc.layers.take d⟩, ⟨qc.num_qubits, qc.layers.drop d⟩)

/-- Modelled from the spec: `utilities.compose_circuit(qcs)` composes the
given sub-circuits into one, in order. -/
def compose_circuit (qcs : List LCircuit) : LCircuit :=
  ⟨(qcs.headD ⟨0, []⟩).num_qubits, (qcs.map LCircuit.layers).foldl (· ++ ·) []⟩

/-- Modelled from the spec: `utilities.truncate_circuit(qc, d)` crops the
circuit back to depth at most `d`, discarding structure beyond that
depth. -/
def truncate_circuit (qc : LCircuit) (d : Nat) : LCircuit :=
  ⟨qc.num_qubits, qc.layers.take d⟩

/-- Modelled from the spec: `random_circuit.generate_with_pool(q, d)`
synthesizes a freshly generated random circuit with `q` qubits and depth
`d`; the randomness is an explicit stream of layers. -/
def generate_with_pool (randLayers : Nat → List Gate) (q d : Nat) :
    LCircuit :=
  ⟨q, (List.range d).map randLayers⟩

/-- One iteration of the layerflip loop: on a hit at `index` the circuit
is split at `index`, the first layer of the suffix is discarded, a fresh
depth-1 circuit is composed in its place, and the result is truncated
back to the standard depth captured before the loop. -/
def layerflip_step (coins : Nat → ℚ)
    (randLayers : Nat → Nat → List Gate) (prob_mutate : ℚ)
    (standard_depth : Nat) (acc : LCircuit × List Nat) (index : Nat) :
    LCircuit × List Nat :=
  if coins index < prob_mutate then
    let qc1 := (divide_circuit_by_depth acc.1 index).1
    let qc2 := (divide_circuit_by_depth acc.1 index).2
    let qc22 := (divide_circuit_by_depth qc2 1).2
    let genome := generate_with_pool (randLayers index) acc.1.num_qubits 1
    let comp := compose_circuit [qc1, genome, qc22]
    (truncate_circuit comp standard_depth, acc.2 ++ [index])
  else acc

/-- The loop of `layerflip_mutate` with an explicit coin stream and
layer-randomness stream, also returning the list of accepted
depth-offsets.  The standard depth is captured once before the loop. -/
def layerflip_mutate_aux (coins : Nat → ℚ)
    (randLayers : Nat → Nat → List Gate) (prob_mutate : ℚ)
    (qc : LCircuit) : LCircuit × List Nat :=
  let standard_depth := qc.depth
  (List.range standard_depth).foldl
    (layerflip_step coins randLayers prob_mutate standard_depth) (qc, [])

/-- The function `layerflip_mutate`: the circuit returned to the caller. -/
def layerflip_mutate (coins : Nat → ℚ)
    (randLayers : Nat → Nat → List Gate) (prob_mutate : ℚ)
    (qc : LCircuit) : LCircuit :=
  (layerflip_mutate_aux coins randLayers prob_mutate qc).1

/-- The closure `normalizer.by_depth(depth)` applied to a circuit, parametrised by
the external divider family `divider_by_depth`: if the circuit's depth
is at most the target it is returned as is, otherwise the first half of
the divider's split is returned. -/
def normalizer_by_depth (divider : Nat → LCircuit → LCircuit × LCircuit)
    (d : Nat) (qc : LCircuit) : LCircuit :=
  if qc.depth ≤ d then qc else (divider d qc).1

/-! ## Helper lemmas -/

/-- Instantiation does not change the descriptor's declared arity (the
pool-authoring invariant, holding by construction in the model). -/
theorem instantiate_gate_num_qubits (d : GateDescr) (index : Nat) :
    (instantiate_gate d index).num_qubits = d.num_qubits := by
  unfold instantiate_gate
  split_ifs <;> rfl

/-- Any gate returned by the redraw loop has the requested arity. -/
theorem drawLoop_arity (pool : List GateDescr) (draws : Nat → Nat)
    (index arity : Nat) :
    ∀ fuel step gate,
      drawLoop pool draws index arity fuel step = some gate →
      gate.num_qubits = arity := by
  intro fuel
  induction fuel with
  | zero => intro step gate h; simp [drawLoop] at h
  | succ n ih =>
    intro step gate h
    rw [drawLoop] at h
    split_ifs at h with hcond
    · cases h; exact hcond
    · exact ih (step + 1) gate h

/-- If no descriptor in a nonempty pool has the requested arity, the
redraw loop accepts no draw, for any fuel and at any step. -/
theorem drawLoop_no_match (pool : List GateDescr) (draws : Nat → Nat)
    (index arity : Nat) (hpool : pool ≠ [])
    (hno : ∀ d ∈ pool, d.num_qubits ≠ arity) :
    ∀ fuel step, drawLoop pool draws index arity fuel step = none := by
  intro fuel
  induction fuel with
  | zero => intro step; rfl
  | succ n ih =>
    intro step
    rw [drawLoop]
    have hlen : draws step % pool.length < pool.length :=
      Nat.mod_lt _ (List.length_pos.mpr hpool)
    have hmem : pool.getD (draws step % pool.length) ⟨"", 0, 0⟩ ∈ pool := by
      rw [List.getD_eq_getElem _ _ hlen]
      exact List.getElem_mem hlen
    rw [if_neg]
    · exact ih (step + 1)
    · rw [instantiate_gate_num_qubits]
      exact hno _ hmem

/-! ## Claims about the Site Mutator (`specific_mutate`) -/

/-- C9: calling the Site Mutator at a position index at or beyond the
gate count surfaces the boundary-violation error directly, for any pool,
draw stream and fuel. -/
theorem specific_mutate_out_of_range (pool : List GateDescr)
    (draws : Nat → Nat) (fuel : Nat) (qc : Circuit) (index : Nat)
    (h : qc.length ≤ index) :
    specific_mutate pool draws fuel qc index = .indexError := by
  unfold specific_mutate
  rw [List.get?_eq_none.mpr h]

theorem specific_mutate_out_of_range_witness :
    ([] : Circuit).length ≤ 2 ∧
      specific_mutate [⟨"x", 1, 0⟩] (fun _ => 0) 5 [] 2 = .indexError :=
  ⟨by decide,
    specific_mutate_out_of_range [⟨"x", 1, 0⟩] (fun _ => 0) 5 [] 2
      (by decide)⟩

/-- C1: whenever the Site Mutator returns a circuit, the operation at
the mutated position has the same qubit arity as the operation that was
there before the call. -/
theorem specific_mutate_preserves_arity (pool : List GateDescr)
    (draws : Nat → Nat) (fuel : Nat) (qc : Circuit) (index : Nat)
    (qc' : Circuit)
    (h : specific_mutate pool draws fuel qc index = .ok qc') :
    (qc'.get? index).map (fun i => i.operation.num_qubits) =
      (qc.get? index).map (fun i => i.operation.num_qubits) := by
  unfold specific_mutate at h
  cases hget : qc.get? index with
  | none => rw [hget] at h; exact absurd h (by simp)
  | some instr =>
    rw [hget] at h
    dsimp only at h
    have hidx : index < qc.length := (List.get?_eq_some.mp hget).1
    cases hdraw : drawLoop pool draws index instr.operation.num_qubits fuel 0 with
    | none => rw [hdraw] at h; exact absurd h (by simp)
    | some gate =>
      rw [hdraw] at h
      dsimp only at h
      have harity : gate.num_qubits = instr.operation.num_qubits :=
        drawLoop_arity pool draws index _ fuel 0 gate hdraw
      have hget' : qc[index]? = some instr := by
        rw [← List.get?_eq_getElem?]; exact hget
      split_ifs at h with h1 h2 h3 <;> cases h <;>
        simp [List.get?_eq_getElem?, List.getElem?_set_self hidx, harity,
          hget']

theorem specific_mutate_preserves_arity_witness :
    (([⟨⟨"x", 1, []⟩, [0], []⟩] : Circuit).get? 0).map
        (fun i => i.operation.num_qubits) =
      (([⟨⟨"h", 1, []⟩, [0], []⟩] : Circuit).get? 0).map
        (fun i => i.operation.num_qubits) :=
  specific_mutate_preserves_arity [⟨"x", 1, 0⟩] (fun _ => 0) 1
    [⟨⟨"h", 1, []⟩, [0], []⟩] 0 [⟨⟨"x", 1, []⟩, [0], []⟩] (by decide)

/-- C8: at a position whose existing operation's arity matches no
descriptor of the (nonempty) pool, no draw is ever accepted — the redraw
loop spins for every fuel bound, and the Site Mutator never returns a
circuit. -/
theorem specific_mutate_no_match_spins (pool : List GateDescr)
    (draws : Nat → Nat) (qc : Circuit) (index : Nat)
    (instr : CircuitInstruction) (hget : qc.get? index = some instr)
    (hpool : pool ≠ [])
    (hno : ∀ d ∈ pool, d.num_qubits ≠ instr.operation.num_qubits) :
    (∀ fuel step,
        drawLoop pool draws index instr.operation.num_qubits fuel step
          = none) ∧
      ∀ fuel, specific_mutate pool draws fuel qc index = .outOfFuel := by
  have hnone := drawLoop_no_match pool draws index
    instr.operation.num_qubits hpool hno
  refine ⟨hnone, fun fuel => ?_⟩
  unfold specific_mutate
  rw [hget]
  dsimp only
  rw [hnone fuel 0]

/-- C2 counterexample: at a position holding a 3-qubit `ccx`, a pool
draw of the 3-qubit `ccz` is accepted (arities match, the loop breaks),
yet the position is NOT overwritten: the returned circuit still holds
the old `ccx` operation, not the accepted new operation. -/
theorem specific_mutate_arity3_counterexample :
    specific_mutate [⟨"ccz", 3, 0⟩] (fun _ => 0) 1
        [⟨⟨"ccx", 3, []⟩, [0, 1, 2], []⟩] 0
      = .ok [⟨⟨"ccx", 3, []⟩, [0, 1, 2], []⟩] ∧
    specific_mutate [⟨"ccz", 3, 0⟩] (fun _ => 0) 1
        [⟨⟨"ccx", 3, []⟩, [0, 1, 2], []⟩] 0
      ≠ .ok [⟨instantiate_gate ⟨"ccz", 3, 0⟩ 0, [0, 1, 2], []⟩] := by
  constructor <;> decide

/-- C2 (amended): for an accepted draw, the Site Mutator overwrites the
position with (new operation, rebound qubits, empty classical bits) when
the new operation's arity is 1 or 2 — rebinding to the first qubit for
arity 1 and to the first two qubits for arity 2 — and leaves the
position (and the rest of the circuit) unchanged for any other arity. -/
theorem specific_mutate_overwrite_arity_cases (pool : List GateDescr)
    (draws : Nat → Nat) (fuel : Nat) (qc : Circuit) (index : Nat)
    (instr : CircuitInstruction) (gate : Gate) (qc' : Circuit)
    (hget : qc.get? index = some instr)
    (hwf : instr.operation.num_qubits = instr.qubits.length)
    (hdraw : drawLoop pool draws index instr.operation.num_qubits fuel 0
      = some gate)
    (hok : specific_mutate pool draws fuel qc index = .ok qc') :
    qc'.length = qc.length ∧
    qc'.take index = qc.take index ∧
    qc'.drop (index + 1) = qc.drop (index + 1) ∧
    qc'.get? index = some
      (if gate.num_qubits = 1 then ⟨gate, [instr.qubits.headD 0], []⟩
       else if gate.num_qubits = 2 then
         ⟨gate, [instr.qubits.getD 0 0, instr.qubits.getD 1 0], []⟩
       else instr) := by
  unfold specific_mutate at hok
  rw [hget] at hok
  dsimp only at hok
  rw [hdraw] at hok
  dsimp only at hok
  have harity : gate.num_qubits = instr.operation.num_qubits :=
    drawLoop_arity pool draws index _ fuel 0 gate hdraw
  have hidx : index < qc.length := (List.get?_eq_some.mp hget).1
  split_ifs at hok with h1 h2 h3 <;> cases hok
  · refine ⟨by simp, ?_, ?_, ?_⟩
    · rw [List.set_take]
      exact List.set_eq_of_length_le
        (by rw [List.length_take]; exact Nat.min_le_left _ _)
    · rw [List.drop_set, if_pos (Nat.lt_succ_self index)]
    · rw [List.get?_eq_getElem?, List.getElem?_set_self hidx]
      simp [h1]
  · refine ⟨by simp, ?_, ?_, ?_⟩
    · rw [List.set_take]
      exact List.set_eq_of_length_le
        (by rw [List.length_take]; exact Nat.min_le_left _ _)
    · rw [List.drop_set, if_pos (Nat.lt_succ_self index)]
    · rw [List.get?_eq_getElem?, List.getElem?_set_self hidx]
      simp [h1, h2]
  · exact absurd (show instr.qubits.length > 1 by omega) h3
  · exact ⟨rfl, rfl, rfl, by rw [hget]; simp [h1, h2]⟩

theorem specific_mutate_overwrite_arity_cases_witness :
    ([⟨⟨"cz", 2, []⟩, [0, 1], []⟩] : Circuit).length =
        ([⟨⟨"cx", 2, []⟩, [0, 1], []⟩] : Circuit).length ∧
      ([⟨⟨"cz", 2, []⟩, [0, 1], []⟩] : Circuit).take 0 =
        ([⟨⟨"cx", 2, []⟩, [0, 1], []⟩] : Circuit).take 0 ∧
      ([⟨⟨"cz", 2, []⟩, [0, 1], []⟩] : Circuit).drop 1 =
        ([⟨⟨"cx", 2, []⟩, [0, 1], []⟩] : Circuit).drop 1 ∧
      ([⟨⟨"cz", 2, []⟩, [0, 1], []⟩] : Circuit).get? 0 =
        some ⟨⟨"cz", 2, []⟩, [0, 1], []⟩ :=
  specific_mutate_overwrite_arity_cases [⟨"cz", 2, 0⟩] (fun _ => 0) 1
    [⟨⟨"cx", 2, []⟩, [0, 1], []⟩] 0 ⟨⟨"cx", 2, []⟩, [0, 1], []⟩
    ⟨"cz", 2, []⟩ [⟨⟨"cz", 2, []⟩, [0, 1], []⟩]
    (by decide) (by decide) (by decide) (by decide)

theorem specific_mutate_no_match_spins_witness :
    specific_mutate [⟨"cx", 2, 0⟩] (fun _ => 0) 9
        [⟨⟨"h", 1, []⟩, [0], []⟩] 0 = .outOfFuel :=
  (specific_mutate_no_match_spins [⟨"cx", 2, 0⟩] (fun _ => 0)
    [⟨⟨"h", 1, []⟩, [0], []⟩] 0 ⟨⟨"h", 1, []⟩, [0], []⟩ (by decide)
    (by decide) (by decide)).2 9

/-! ## Claims about the constrained Site Mutator -/

/-- A gate accepted by the constrained redraw loop has the requested
arity and satisfies the rotation-floor acceptance predicate. -/
theorem drawLoopTesting_accept (pool : List GateDescr)
    (draws : Nat → Nat) (index arity : Nat) (currentIsRot : Bool)
    (numRot numQubits : Nat) :
    ∀ fuel step gate,
      drawLoopTesting pool draws index arity currentIsRot numRot
        numQubits fuel step = some gate →
      gate.num_qubits = arity ∧
        (isRotGate gate.name = true ∨
          (currentIsRot = false ∧ numQubits ≤ numRot)) := by
  intro fuel
  induction fuel with
  | zero => intro step gate h; simp [drawLoopTesting] at h
  | succ n ih =>
    intro step gate h
    rw [drawLoopTesting] at h
    split_ifs at h with hcond
    · cases h; exact hcond
    · exact ih (step + 1) gate h

/-- One constrained Site Mutator call preserves the rotation floor. -/
theorem specific_mutate_testing_rot_floor_step (pool : List GateDescr)
    (draws : Nat → Nat) (fuel : Nat) (qc : Circuit)
    (index num_qubits : Nat) (qc' : Circuit)
    (hok : specific_mutate_testing pool draws fuel qc index num_qubits
      = .ok qc')
    (hQ : num_qubits ≤ num_rot_gates qc) :
    num_qubits ≤ num_rot_gates qc' := by
  unfold specific_mutate_testing at hok
  cases hget : qc.get? index with
  | none => rw [hget] at hok; exact absurd hok (by simp)
  | some instr =>
    rw [hget] at hok
    dsimp only at hok
    cases hdraw : drawLoopTesting pool draws index
        instr.operation.num_qubits (isRotGate instr.operation.name)
        (num_rot_gates qc) num_qubits fuel 0 with
    | none => rw [hdraw] at hok; exact absurd hok (by simp)
    | some gate =>
      rw [hdraw] at hok
      dsimp only at hok
      cases hok
      have hidx : index < qc.length := (List.get?_eq_some.mp hget).1
      have hget' : qc[index]? = some instr := by
        rw [← List.get?_eq_getElem?]; exact hget
      have hgetelem : qc[index] = instr := by
        have h2 := hget'
        rw [List.getElem?_eq_getElem hidx] at h2
        exact Option.some.inj h2
      obtain ⟨harity, hcond⟩ := drawLoopTesting_accept pool draws index
        instr.operation.num_qubits (isRotGate instr.operation.name)
        (num_rot_gates qc) num_qubits fuel 0 gate hdraw
      have hone := List.boole_getElem_le_countP
        (fun i => isRotGate i.operation.name) qc index hidx
      have hcount := List.countP_set
        (fun i => isRotGate i.operation.name) qc index
        ⟨gate, instr.qubits, []⟩ hidx
      unfold num_rot_gates at hQ ⊢
      rw [hcount]
      rw [hgetelem] at hone ⊢
      cases hold : isRotGate instr.operation.name <;>
        cases hnew : isRotGate gate.name <;>
        simp at hone ⊢
      · omega
      · omega
      · rcases hcond with hc | ⟨hc, _⟩
        · rw [hnew] at hc; cases hc
        · rw [hold] at hc; cases hc
      · omega

/-- C3: for any circuit over `Q` qubits whose rotation-gate count has
reached `Q`, after any sequence of constrained Site Mutator calls the
rotation-gate count is still at least `Q`. -/
theorem mutate_testing_seq_rot_floor (pool : List GateDescr)
    (steps : List ((Nat → Nat) × Nat × Nat)) (num_qubits : Nat)
    (qc : Circuit) (hQ : num_qubits ≤ num_rot_gates qc) :
    num_qubits ≤
      num_rot_gates (mutate_testing_seq pool steps num_qubits qc) := by
  induction steps generalizing qc with
  | nil => exact hQ
  | cons s rest ih =>
    unfold mutate_testing_seq
    rw [List.foldl_cons]
    have hstep : num_qubits ≤ num_rot_gates
        (match specific_mutate_testing pool s.1 s.2.1 qc s.2.2 num_qubits
            with
          | .ok qc' => qc'
          | _ => qc) := by
      cases hs : specific_mutate_testing pool s.1 s.2.1 qc s.2.2 num_qubits
          with
      | ok qc' =>
        exact specific_mutate_testing_rot_floor_step pool s.1 s.2.1 qc
          s.2.2 num_qubits qc' hs hQ
      | indexError => exact hQ
      | outOfFuel => exact hQ
    exact ih _ hstep

theorem mutate_testing_seq_rot_floor_witness :
    1 ≤ num_rot_gates [⟨⟨"rx", 1, ["0"]⟩, [0], []⟩] ∧
      1 ≤ num_rot_gates
        (mutate_testing_seq [⟨"ry", 1, 1⟩] [(fun _ => 0, 1, 0)] 1
          [⟨⟨"rx", 1, ["0"]⟩, [0], []⟩]) :=
  ⟨by decide,
    mutate_testing_seq_rot_floor [⟨"ry", 1, 1⟩] [(fun _ => 0, 1, 0)] 1
      [⟨⟨"rx", 1, ["0"]⟩, [0], []⟩] (by decide)⟩

/-! ## Claims about the Bitflip Mutator -/

/-- Once a Site Mutator call has failed, the rest of the bitflip pass
produces nothing. -/
theorem bitflip_foldl_none (pool : List GateDescr)
    (drawsAt : Nat → Nat → Nat) (fuel : Nat) (coins : Nat → ℚ)
    (prob : ℚ) :
    ∀ l : List Nat,
      l.foldl (bitflip_step pool drawsAt fuel coins prob) none = none := by
  intro l
  induction l with
  | nil => rfl
  | cons i l ih => rw [List.foldl_cons]; exact ih

/-- When every coin of the pass fires, the trace of visited positions is
the whole index list, in order. -/
theorem bitflip_foldl_trace (pool : List GateDescr)
    (drawsAt : Nat → Nat → Nat) (fuel : Nat) (coins : Nat → ℚ)
    (prob : ℚ) :
    ∀ (l : List Nat) (q : Circuit) (t : List Nat)
      (res : Circuit × List Nat),
      (∀ i ∈ l, coins i < prob) →
      l.foldl (bitflip_step pool drawsAt fuel coins prob) (some (q, t))
        = some res →
      res.2 = t ++ l := by
  intro l
  induction l with
  | nil => intro q t res _ h; cases h; simp
  | cons i l ih =>
    intro q t res hc h
    rw [List.foldl_cons] at h
    have hci : coins i < prob := hc i (List.mem_cons_self i l)
    rw [show bitflip_step pool drawsAt fuel coins prob (some (q, t)) i =
        (match specific_mutate pool (drawsAt i) fuel q i with
          | .ok qc' => some (qc', t ++ [i])
          | _ => none) by
      simp only [bitflip_step]; rw [if_pos hci]] at h
    cases hs : specific_mutate pool (drawsAt i) fuel q i with
    | ok qc1 =>
      rw [hs] at h
      dsimp only at h
      have htail := ih qc1 (t ++ [i]) res
        (fun j hj => hc j (List.mem_cons_of_mem _ hj)) h
      rw [htail, List.append_assoc]
      rfl
    | indexError =>
      rw [hs] at h
      dsimp only at h
      rw [bitflip_foldl_none pool drawsAt fuel coins prob l] at h
      exact absurd h (by simp)
    | outOfFuel =>
      rw [hs] at h
      dsimp only at h
      rw [bitflip_foldl_none pool drawsAt fuel coins prob l] at h
      exact absurd h (by simp)

/-- When no coin of the pass fires, the fold is the identity. -/
theorem bitflip_foldl_skip (pool : List GateDescr)
    (drawsAt : Nat → Nat → Nat) (fuel : Nat) (coins : Nat → ℚ)
    (prob : ℚ) (hnc : ∀ i : Nat, ¬coins i < prob) :
    ∀ (l : List Nat) (q : Circuit) (t : List Nat),
      l.foldl (bitflip_step pool drawsAt fuel coins prob) (some (q, t))
        = some (q, t) := by
  intro l
  induction l with
  | nil => intro q t; rfl
  | cons i l ih =>
    intro q t
    rw [List.foldl_cons]
    rw [show bitflip_step pool drawsAt fuel coins prob (some (q, t)) i =
        some (q, t) by simp only [bitflip_step]; rw [if_neg (hnc i)]]
    exact ih q t

/-- C5: in a bitflip pass with mutation probability 1 (every coin of the
half-open unit interval is below 1), the Site Mutator fires at every
position of the input circuit exactly once, in position order, the
position count being the input's gate count, fixed before the pass. -/
theorem bitflip_mutate_prob_one_every_position (pool : List GateDescr)
    (drawsAt : Nat → Nat → Nat) (fuel : Nat) (coins : Nat → ℚ)
    (qc qc' : Circuit) (tr : List Nat) (hcoins : ∀ n, coins n < 1)
    (h : bitflip_mutate_func pool drawsAt fuel coins 1 qc
      = some (qc', tr)) :
    tr = List.range qc.length := by
  unfold bitflip_mutate_func at h
  have := bitflip_foldl_trace pool drawsAt fuel coins 1
    (List.range qc.length) qc [] (qc', tr) (fun i _ => hcoins i) h
  simpa using this

theorem bitflip_mutate_prob_one_every_position_witness :
    ([0] : List Nat) =
      List.range ([⟨⟨"h", 1, []⟩, [0], []⟩] : Circuit).length :=
  bitflip_mutate_prob_one_every_position [⟨"x", 1, 0⟩] (fun _ _ => 0) 1
    (fun _ => 0) [⟨⟨"h", 1, []⟩, [0], []⟩] [⟨⟨"x", 1, []⟩, [0], []⟩] [0]
    (fun _ => by norm_num) (by decide)

/-- C6: a bitflip pass with mutation probability 0 (every coin being
nonnegative) returns the input circuit unchanged, with an empty trace:
the Site Mutator never fires. -/
theorem bitflip_mutate_prob_zero_id (pool : List GateDescr)
    (drawsAt : Nat → Nat → Nat) (fuel : Nat) (coins : Nat → ℚ)
    (qc : Circuit) (h : ∀ n, 0 ≤ coins n) :
    bitflip_mutate_func pool drawsAt fuel coins 0 qc = some (qc, []) := by
  unfold bitflip_mutate_func
  exact bitflip_foldl_skip pool drawsAt fuel coins 0
    (fun i => not_lt.mpr (h i)) (List.range qc.length) qc []

theorem bitflip_mutate_prob_zero_id_witness :
    bitflip_mutate_func [] (fun _ _ => 0) 0 (fun _ => 0) 0
        [⟨⟨"h", 1, []⟩, [0], []⟩]
      = some ([⟨⟨"h", 1, []⟩, [0], []⟩], []) :=
  bitflip_mutate_prob_zero_id [] (fun _ _ => 0) 0 (fun _ => 0)
    [⟨⟨"h", 1, []⟩, [0], []⟩] (fun _ => le_refl 0)

/-! ## Claims about the Layerflip Mutator and the by-depth normalizer -/

/-- One accepted or skipped layer replacement leaves the depth at the
standard depth captured before the loop, as long as the offset is below
that depth. -/
theorem layerflip_step_depth (coins : Nat → ℚ)
    (randLayers : Nat → Nat → List Gate) (prob_mutate : ℚ) (sd : Nat)
    (acc : LCircuit × List Nat) (index : Nat) (hidx : index < sd)
    (hd : acc.1.depth = sd) :
    (layerflip_step coins randLayers prob_mutate sd acc index).1.depth
      = sd := by
  unfold layerflip_step
  split_ifs with hc
  · simp only [LCircuit.depth, truncate_circuit, compose_circuit,
      generate_with_pool, divide_circuit_by_depth, List.map_cons,
      List.map_nil, List.foldl_cons, List.foldl_nil, List.nil_append,
      List.length_take, List.length_append, List.length_drop,
      List.length_map, List.length_range] at hd ⊢
    omega
  · exact hd

/-- The layerflip loop keeps the depth at the standard depth across any
list of offsets below that depth. -/
theorem layerflip_foldl_depth (coins : Nat → ℚ)
    (randLayers : Nat → Nat → List Gate) (prob_mutate : ℚ) (sd : Nat) :
    ∀ l : List Nat, (∀ i ∈ l, i < sd) → ∀ acc : LCircuit × List Nat,
      acc.1.depth = sd →
      ((l.foldl (layerflip_step coins randLayers prob_mutate sd)
        acc).1).depth = sd := by
  intro l
  induction l with
  | nil => intro _ acc h; exact h
  | cons i l ih =>
    intro hl acc h
    rw [List.foldl_cons]
    exact ih (fun j hj => hl j (List.mem_cons_of_mem _ hj)) _
      (layerflip_step_depth coins randLayers prob_mutate sd acc i
        (hl i (List.mem_cons_self i l)) h)

/-- C4: the Layerflip Mutator returns a circuit of exactly the depth of
its input, for every circuit, coin stream, layer-randomness stream and
mutation probability: each accepted replacement splices a depth-1 layer
in and truncates back to the original depth captured before the loop. -/
theorem layerflip_mutate_depth (coins : Nat → ℚ)
    (randLayers : Nat → Nat → List Gate) (prob_mutate : ℚ)
    (qc : LCircuit) :
    (layerflip_mutate coins randLayers prob_mutate qc).depth
      = qc.depth := by
  unfold layerflip_mutate layerflip_mutate_aux
  exact layerflip_foldl_depth coins randLayers prob_mutate qc.depth
    (List.range qc.depth) (fun i hi => List.mem_range.mp hi) (qc, []) rfl

/-- With no coin below the probability, the layerflip loop is the
identity. -/
theorem layerflip_foldl_skip (coins : Nat → ℚ)
    (randLayers : Nat → Nat → List Gate) (prob_mutate : ℚ) (sd : Nat)
    (hnc : ∀ i : Nat, ¬coins i < prob_mutate) :
    ∀ (l : List Nat) (acc : LCircuit × List Nat),
      l.foldl (layerflip_step coins randLayers prob_mutate sd) acc
        = acc := by
  intro l
  induction l with
  | nil => intro acc; rfl
  | cons i l ih =>
    intro acc
    rw [List.foldl_cons]
    rw [show layerflip_step coins randLayers prob_mutate sd acc i = acc by
      unfold layerflip_step; rw [if_neg (hnc i)]]
    exact ih acc

/-- C7: the Layerflip Mutator with probability 0 (every coin being
nonnegative) accepts no layer offset: the input circuit is returned
unchanged and no truncation or composition step fires. -/
theorem layerflip_mutate_prob_zero_id (coins : Nat → ℚ)
    (randLayers : Nat → Nat → List Gate) (qc : LCircuit)
    (h : ∀ n, 0 ≤ coins n) :
    layerflip_mutate_aux coins randLayers 0 qc = (qc, []) := by
  unfold layerflip_mutate_aux
  exact layerflip_foldl_skip coins randLayers 0 qc.depth
    (fun i => not_lt.mpr (h i)) (List.range qc.depth) (qc, [])

theorem layerflip_mutate_prob_zero_id_witness :
    layerflip_mutate_aux (fun _ => 0) (fun _ _ => []) 0
        ⟨2, [[⟨"h", 1, []⟩], [⟨"cx", 2, []⟩]]⟩
      = (⟨2, [[⟨"h", 1, []⟩], [⟨"cx", 2, []⟩]]⟩, []) :=
  layerflip_mutate_prob_zero_id (fun _ => 0) (fun _ _ => [])
    ⟨2, [[⟨"h", 1, []⟩], [⟨"cx", 2, []⟩]]⟩ (fun _ => le_refl 0)

/-- C10: the by-depth normalizer returns its input unchanged — for every
divider, hence without invoking the one it was built over — exactly when
the circuit's depth is at most the target, and returns the first half of
the divider's split exactly when the depth strictly exceeds the
target. -/
theorem normalizer_by_depth_cases
    (divider : Nat → LCircuit → LCircuit × LCircuit) (d : Nat)
    (qc : LCircuit) :
    (qc.depth ≤ d → normalizer_by_depth divider d qc = qc) ∧
      (d < qc.depth →
        normalizer_by_depth divider d qc = (divider d qc).1) := by
  constructor <;> intro h <;> unfold normalizer_by_depth
  · rw [if_pos h]
  · rw [if_neg (not_le.mpr h)]

theorem normalizer_by_depth_cases_witness :
    normalizer_by_depth (fun _ q => (q, q)) 2 ⟨1, [[⟨"h", 1, []⟩]]⟩
      = ⟨1, [[⟨"h", 1, []⟩]]⟩ :=
  (normalizer_by_depth_cases (fun _ q => (q, q)) 2
    ⟨1, [[⟨"h", 1, []⟩]]⟩).1 (by decide)

end Qoop

